import Mathlib

/-!
Shallow embedding of the pirep integer representation library
(`pirep.py`, the module installed by `setup.py`): the mode context,
the flexible numeral parser `pint`, the two's-complement conversion
functions `inconv` and `c2repr`, the arithmetic layer (`padd`, `pdiv`,
`prem`, `pls`, `prs`, `pxor`, `pinv`, `psetmode`), and the `Enc`/`Field`
bit-field layout engine.

Python's unbounded integers are modeled by `Int`, bit masking by
`Int.emod`, floor division `//` by `Int.fdiv`, `%` by `Int.fmod`,
left shift by multiplication with a power of two and arithmetic right
shift by `Int.fdiv` with a power of two.  Python floats are modeled by
exact rationals (the only floats the library renders are exact images
of integers).  Fallible operations return `Option`/`Except`.
-/

namespace Pirep

/-- Output format tags: the keys of the module's `_ftable`
(`'d'`, `'h'`, `'b'`, `'f'`). -/
inductive Fmt where
  | d
  | h
  | b
  | f
deriving DecidableEq

/-- Result of rendering a value: a Python `int`, `str` or `float` result.
A float result is modeled by its exact integer value: every float that
`outconv` produces is `float(x)` of an integer `x`. -/
inductive Out where
  | intOut (n : Int)
  | strOut (s : String)
  | floatOut (n : Int)
deriving DecidableEq

/-- The process-wide mode of the module: the globals `_is_signed`,
`_int_width` and `_out_format`. -/
structure Mode where
  signed : Bool
  width : Nat
  outFormat : Fmt
deriving DecidableEq

/-- Whitespace characters removed by `re.sub` with pattern `\s+` in
`pint` (ASCII range of the class). -/
def isPySpace (c : Char) : Bool :=
  c = ' ' || c = '\t' || c = '\n' || c = '\r' || c = '\x0b' || c = '\x0c'

/-- Value of a hexadecimal digit character, as accepted by the builtin
`int(s, 16)`. -/
def hexDigit? (c : Char) : Option Nat :=
  if '0' ≤ c ∧ c ≤ '9' then some (c.toNat - '0'.toNat)
  else if 'a' ≤ c ∧ c ≤ 'f' then some (c.toNat - 'a'.toNat + 10)
  else if 'A' ≤ c ∧ c ≤ 'F' then some (c.toNat - 'A'.toNat + 10)
  else none

/-- Value of a binary digit character, as accepted by the builtin
`int(s, 2)`. -/
def binDigit? (c : Char) : Option Nat :=
  if c = '0' then some 0 else if c = '1' then some 1 else none

/-- Digit accumulation loop of the builtin `int(s, base)`: consumes the
remaining characters after the first digit, allowing single underscores
between digits. -/
def digitsLoop (dv : Char → Option Nat) (b : Nat) : Nat → List Char → Option Nat
  | acc, [] => some acc
  | acc, c :: rest =>
    if c = '_' then
      match rest with
      | [] => none
      | c2 :: rest2 =>
        match dv c2 with
        | none => none
        | some d => digitsLoop dv b (acc * b + d) rest2
    else
      match dv c with
      | none => none
      | some d => digitsLoop dv b (acc * b + d) rest

/-- A nonempty digit run of the builtin `int(s, base)`: the first
character must be a digit (no leading underscore). -/
def parseRun (dv : Char → Option Nat) (b : Nat) : List Char → Option Nat
  | [] => none
  | c :: rest =>
    match dv c with
    | none => none
    | some d => digitsLoop dv b d rest

/-- Digit run directly after a base tag such as `0x`: the builtin allows
one optional underscore between the tag and the first digit. -/
def runAfterTag (dv : Char → Option Nat) (b : Nat) : List Char → Option Nat
  | [] => none
  | c :: rest => if c = '_' then parseRun dv b rest else parseRun dv b (c :: rest)

/-- Unsigned part of the builtin `int(s, base)`: an optional base tag
(`0` followed by the lower- or upper-case tag letter) and a digit run. -/
def pyNatOfChars (dv : Char → Option Nat) (b : Nat) (tagL tagU : Char) :
    List Char → Option Nat
  | c0 :: c1 :: rest =>
    if c0 = '0' ∧ (c1 = tagL ∨ c1 = tagU) then runAfterTag dv b rest
    else parseRun dv b (c0 :: c1 :: rest)
  | cs => parseRun dv b cs

/-- Optional sign handling of the builtin `int(s, base)`. -/
def signWrap (f : List Char → Option Nat) : List Char → Option Int
  | [] => (f []).map (fun n => (n : Int))
  | c :: rest =>
    if c = '-' then (f rest).map (fun n => -(n : Int))
    else if c = '+' then (f rest).map (fun n => (n : Int))
    else (f (c :: rest)).map (fun n => (n : Int))

/-- The builtin `int(s, 2)` on a whitespace-free string. -/
def pyInt2 (cs : List Char) : Option Int :=
  signWrap (pyNatOfChars binDigit? 2 'b' 'B') cs

/-- The builtin `int(s, 16)` on a whitespace-free string. -/
def pyInt16 (cs : List Char) : Option Int :=
  signWrap (pyNatOfChars hexDigit? 16 'x' 'X') cs

/-- A flexible numeral argument: Python `int`, `str` or `float`
(floats modeled as exact rationals). -/
inductive Numeral where
  | int (n : Int)
  | str (s : String)
  | float (q : Rat)
deriving DecidableEq

/-- Truncation of a rational toward zero: the value of the builtin
`int(x)` on a float `x`. -/
def ratTrunc (q : Rat) : Int :=
  Int.tdiv q.num (q.den : Int)

/-- The function `pint` of `pirep.py`: convert {float, int, hex, bin} to
an unbounded integer.  Strings have all whitespace removed, then parse
as binary when they begin with `0b` or `-0b` (lower case, as in the
source), and as hexadecimal otherwise.  `none` models a raised
`ValueError`. -/
def pint : Numeral → Option Int
  | .int n => some n
  | .float q => some (ratTrunc q)
  | .str s =>
    let a := s.data.filter (fun c => !(isPySpace c))
    if a.take 2 = ['0', 'b'] ∨ a.take 3 = ['-', '0', 'b'] then pyInt2 a
    else pyInt16 a

/-- The truncation step `x &= ((1 << _int_width) - 1)` shared by
`inconv` and `c2repr`: reduce to the width-bit pattern, always
non-negative (`%` on `Int` is the Euclidean remainder, which agrees
with Python's masking for the positive modulus `2 ^ width`). -/
def toTruncated (m : Mode) (x : Int) : Int :=
  x % (2 ^ m.width)

/-- Core of `inconv` on an already-parsed integer: truncate to the
width, then reinterpret as signed if the mode is signed and the high
bit is set. -/
def inconvI (m : Mode) (x : Int) : Int :=
  let t := toTruncated m x
  if m.signed ∧ (2 ^ (m.width - 1) : Int) ≤ t then t - 2 ^ m.width else t

/-- The function `inconv` of `pirep.py`: parse a numeral and truncate it
to the integer width, reinterpreting per signedness (this is the spec's
`to_logical`). -/
def inconv (m : Mode) (a : Numeral) : Option Int :=
  (pint a).map (inconvI m)

/-- The function `outconv` of `pirep.py`: format a non-negative value
(the source asserts `x >= 0`) in the given format, or the mode's
default format when none is given. -/
def outconv (m : Mode) (x : Nat) (fmt? : Option Fmt) : Out :=
  match fmt?.getD m.outFormat with
  | Fmt.d => Out.intOut x
  | Fmt.h => Out.strOut ("0x" ++ (Nat.toDigits 16 x).asString)
  | Fmt.b => Out.strOut ("0b" ++ (Nat.toDigits 2 x).asString)
  | Fmt.f => Out.floatOut x

/-- Python unary minus on an `outconv` result.  The source only negates
decimal and float results; the string case is unreachable there and is
modeled as the identity. -/
def negOut : Out → Out
  | Out.intOut n => Out.intOut (-n)
  | Out.strOut s => Out.strOut s
  | Out.floatOut n => Out.floatOut (-n)

/-- The function `c2repr` of `pirep.py` on an already-parsed integer
(every call in the arithmetic layer passes a Python `int`, for which
`pint` is the identity): truncate to the width and render, negating the
two's complement when the mode is signed, the high bit is set and the
format is decimal or float. -/
def c2repr (m : Mode) (val : Int) (fmt? : Option Fmt) : Out :=
  let x : Nat := (toTruncated m val).toNat
  if m.signed then
    let fmt := fmt?.getD m.outFormat
    if (2 : Nat) ^ (m.width - 1) ≤ x ∧ (fmt = Fmt.d ∨ fmt = Fmt.f) then
      negOut (outconv m (2 ^ m.width - x) (some fmt))
    else outconv m x (some fmt)
  else outconv m x fmt?

/-- The function `padd` of `pirep.py`: sum of integers. -/
def padd (m : Mode) (a1 a2 : Numeral) (fmt? : Option Fmt) : Option Out :=
  match inconv m a1, inconv m a2 with
  | some x, some y => some (c2repr m (x + y) fmt?)
  | _, _ => none

/-- The function `pdiv` of `pirep.py`: Python `//` is floor division;
division by zero raises, modeled by `none`. -/
def pdiv (m : Mode) (a1 a2 : Numeral) (fmt? : Option Fmt) : Option Out :=
  match inconv m a1, inconv m a2 with
  | some x, some y => if y = 0 then none else some (c2repr m (Int.fdiv x y) fmt?)
  | _, _ => none

/-- The function `prem` of `pirep.py`: Python `%` is the floor-division
remainder; a zero modulus raises, modeled by `none`. -/
def prem (m : Mode) (a1 a2 : Numeral) (fmt? : Option Fmt) : Option Out :=
  match inconv m a1, inconv m a2 with
  | some x, some y => if y = 0 then none else some (c2repr m (Int.fmod x y) fmt?)
  | _, _ => none

/-- The function `pls` of `pirep.py`: left shift by `inconv(i)` places.
Python `<<` raises `ValueError` on a negative shift count, modeled by
`none`; a non-negative shift by `s` is multiplication by `2 ^ s`. -/
def pls (m : Mode) (a i : Numeral) (fmt? : Option Fmt) : Option Out :=
  match inconv m a, inconv m i with
  | some x, some s =>
    if s < 0 then none else some (c2repr m (x * 2 ^ s.toNat) fmt?)
  | _, _ => none

/-- The function `prs` of `pirep.py`: arithmetic right shift by
`inconv(i)` places.  Python `>>` raises `ValueError` on a negative
count, modeled by `none`; a non-negative shift by `s` is floor division
by `2 ^ s`. -/
def prs (m : Mode) (a i : Numeral) (fmt? : Option Fmt) : Option Out :=
  match inconv m a, inconv m i with
  | some x, some s =>
    if s < 0 then none else some (c2repr m (Int.fdiv x (2 ^ s.toNat)) fmt?)
  | _, _ => none

/-- Python's bitwise `^` on unbounded integers, by cases on the
two's-complement signs of the operands. -/
def pyXor : Int → Int → Int
  | Int.ofNat a, Int.ofNat b => Int.ofNat (a ^^^ b)
  | Int.ofNat a, Int.negSucc b => Int.negSucc (a ^^^ b)
  | Int.negSucc a, Int.ofNat b => Int.negSucc (a ^^^ b)
  | Int.negSucc a, Int.negSucc b => Int.ofNat (a ^^^ b)

/-- The function `pxor` of `pirep.py`: bitwise XOR. -/
def pxor (m : Mode) (a1 a2 : Numeral) (fmt? : Option Fmt) : Option Out :=
  match inconv m a1, inconv m a2 with
  | some x, some y => some (c2repr m (pyXor x y) fmt?)
  | _, _ => none

/-- The function `pinv` of `pirep.py`: its body is `return pxor(a, -1)`,
so the `fmt` parameter is never forwarded. -/
def pinv (m : Mode) (a : Numeral) (_fmt? : Option Fmt) : Option Out :=
  pxor m a (Numeral.int (-1)) none

/-- The function `psetmode` of `pirep.py` as a state transition on the
module globals.  Updates are applied in source order: signedness first,
then the width (whose `assert width > 0` may raise, modeled by
`Except.error` carrying the state at the raise), then the default
format.  Format tags are modeled by `Fmt`, so the `assert fmt in
_ftable` always passes. -/
def psetmode (st : Mode) (signed? : Option Bool) (width? : Option Int)
    (fmt? : Option Fmt) : Except Mode Mode :=
  let st1 := match signed? with
    | some b => { st with signed := b }
    | none => st
  match width? with
  | some w =>
    if 0 < w then
      let st2 := { st1 with width := w.toNat }
      Except.ok (match fmt? with
        | some fm => { st2 with outFormat := fm }
        | none => st2)
    else Except.error st1
  | none =>
    Except.ok (match fmt? with
      | some fm => { st1 with outFormat := fm }
      | none => st1)

/-- A bit field of an `Enc`: name and first/last bit numbers (the
annotation containers `verbose`, `invalid` and `only_true` play no role
in the layout and are omitted). -/
structure Field where
  fname : String
  fbeg : Nat
  fend : Nat
deriving DecidableEq

/-- An encoding: entity name and the list of fields, lowest bits
first. -/
structure Enc where
  name : String
  fields : List Field
deriving DecidableEq

/-- The relation used by `sorted(fields_unsorted, key=lambda x: x[1])`:
compare pairs by their last-bit number. -/
def pairLe (x y : String × Nat) : Prop :=
  x.2 ≤ y.2

instance : DecidableRel pairLe :=
  fun x y => inferInstanceAs (Decidable (x.2 ≤ y.2))

instance : IsTotal (String × Nat) pairLe :=
  ⟨fun a b => Nat.le_total a.2 b.2⟩

instance : IsTrans (String × Nat) pairLe :=
  ⟨fun _ _ _ => Nat.le_trans⟩

/-- Python's `sorted` with key `x[1]`: a stable sort by the last-bit
number, modeled by stable insertion sort. -/
def sortPairs (l : List (String × Nat)) : List (String × Nat) :=
  l.insertionSort pairLe

/-- The loop of `Enc.__init__` over the sorted tail: each next field
begins one past the previous pair's last bit. -/
def buildFields : Nat → List (String × Nat) → List Field
  | _, [] => []
  | lastFend, p :: rest => Field.mk p.1 (lastFend + 1) p.2 :: buildFields p.2 rest

/-- The constructor `Enc.__init__` of `pirep.py`: sort the pairs by
last-bit number, give the first field low bit 0, and chain the rest.
An empty collection raises `IndexError` at `fields[0]`, modeled by
`none`.  The source performs no duplicate check. -/
def Enc.construct (name : String) (fieldsUnsorted : List (String × Nat)) :
    Option Enc :=
  match sortPairs fieldsUnsorted with
  | [] => none
  | p0 :: rest => some (Enc.mk name (Field.mk p0.1 0 p0.2 :: buildFields p0.2 rest))

/-- Outcome of `Enc.field`: the matched field, a failed
`assert f.fname == fname_lbit[0]`, or the implicit `return None` after
the loop. -/
inductive LookupResult where
  | found (f : Field)
  | assertFail
  | noneRet
deriving DecidableEq

/-- Loop body of `Enc.field` over the field list. -/
def fieldLookup : List Field → String × Nat → LookupResult
  | [], _ => LookupResult.noneRet
  | f :: rest, q =>
    if f.fend = q.2 then
      if f.fname = q.1 then LookupResult.found f else LookupResult.assertFail
    else fieldLookup rest q

/-- The method `Enc.field` of `pirep.py`: scan the fields for one whose
last bit equals the queried bit; assert the name matches; fall through
to Python's implicit `None` when no last bit matches. -/
def Enc.field (e : Enc) (q : String × Nat) : LookupResult :=
  fieldLookup e.fields q

/-- The render step of the spec, section 4.3, written from its words:
given the non-negative bit pattern of a truncated value and a format
tag (explicit or the mode default), render the negative logical value
for decimal and float formats in signed mode when the high bit of the
pattern is set, and the raw pattern otherwise. -/
def renderPerSpec (m : Mode) (pat : Nat) (fmt? : Option Fmt) : Out :=
  let fmt := fmt?.getD m.outFormat
  if m.signed ∧ 2 ^ (m.width - 1) ≤ pat ∧ (fmt = Fmt.d ∨ fmt = Fmt.f) then
    match fmt with
    | Fmt.f => Out.floatOut (-((2 ^ m.width - pat : Nat) : Int))
    | _ => Out.intOut (-((2 ^ m.width - pat : Nat) : Int))
  else
    match fmt with
    | Fmt.d => Out.intOut pat
    | Fmt.h => Out.strOut ("0x" ++ (Nat.toDigits 16 pat).asString)
    | Fmt.b => Out.strOut ("0b" ++ (Nat.toDigits 2 pat).asString)
    | Fmt.f => Out.floatOut pat

/-- Contiguous chaining of a field list starting at a given low bit:
each field begins exactly where demanded, is non-degenerate, and the
next field continues at its last bit plus one. -/
def chainedFrom : Nat → List Field → Prop
  | _, [] => True
  | lo, f :: rest => f.fbeg = lo ∧ lo ≤ f.fend ∧ chainedFrom (f.fend + 1) rest

/-- One past the last bit covered by a chained field list. -/
def chainEnd : Nat → List Field → Nat
  | lo, [] => lo
  | _, f :: rest => chainEnd (f.fend + 1) rest

/-- Largest high bit among the boundary pairs. -/
def maxHigh (pairs : List (String × Nat)) : Nat :=
  (pairs.map Prod.snd).foldr max 0


/-! ## Helper lemmas on the conversion pipeline -/

theorem toTruncated_idem (m : Mode) (x : Int) :
    toTruncated m (toTruncated m x) = toTruncated m x :=
  Int.emod_emod_of_dvd x dvd_rfl

theorem toTruncated_inconvI (m : Mode) (x : Int) :
    toTruncated m (inconvI m (toTruncated m x)) = toTruncated m x := by
  unfold inconvI
  by_cases hc : m.signed ∧ (2 ^ (m.width - 1) : Int) ≤ toTruncated m (toTruncated m x)
  · simp only [hc, and_self, if_true]
    show (toTruncated m (toTruncated m x) - 2 ^ m.width) % (2 ^ m.width) = toTruncated m x
    rw [Int.sub_emod, Int.emod_self, sub_zero]
    show toTruncated m (toTruncated m (toTruncated m (toTruncated m x))) = toTruncated m x
    rw [toTruncated_idem, toTruncated_idem, toTruncated_idem]
  · simp only [hc, if_false]
    rw [toTruncated_idem, toTruncated_idem]

theorem c2repr_eq_renderPerSpec (m : Mode) (v : Int) (fmt? : Option Fmt) :
    c2repr m v fmt? = renderPerSpec m (toTruncated m v).toNat fmt? := by
  obtain ⟨s, w, fdef⟩ := m
  cases s
  · cases h : fmt?.getD fdef <;>
      simp [c2repr, renderPerSpec, outconv, h]
  · cases h : fmt?.getD fdef <;>
      simp only [c2repr, renderPerSpec, outconv, negOut, h] <;>
      split_ifs <;>
      simp_all

theorem pyXor_neg_one (x : Int) : pyXor x (-1) = -x - 1 := by
  have h : (-1 : Int) = Int.negSucc 0 := rfl
  cases x with
  | ofNat n =>
    rw [h]
    show Int.negSucc (n ^^^ 0) = -(Int.ofNat n) - 1
    rw [Nat.xor_zero, Int.negSucc_eq, Int.ofNat_eq_natCast]
    ring
  | negSucc n =>
    rw [h]
    show Int.ofNat (n ^^^ 0) = -(Int.negSucc n) - 1
    rw [Nat.xor_zero, Int.negSucc_eq, Int.ofNat_eq_natCast]
    ring

theorem inconvI_neg_one_signed (m : Mode) (hs : m.signed = true)
    (hw : 0 < m.width) : inconvI m (-1) = -1 := by
  have hN : (1 : Int) < 2 ^ m.width := by
    calc (1 : Int) < 2 ^ 1 := by norm_num
    _ ≤ 2 ^ m.width := pow_le_pow_right₀ (by norm_num) hw
  have ht : toTruncated m (-1) = 2 ^ m.width - 1 := by
    show (-1 : Int) % (2 ^ m.width) = 2 ^ m.width - 1
    have : (-1 : Int) = (2 ^ m.width - 1) + (2 ^ m.width) * (-1) := by ring
    rw [this, Int.add_mul_emod_self_left]
    exact Int.emod_eq_of_lt (by omega) (by omega)
  have hhi : (2 ^ (m.width - 1) : Int) ≤ 2 ^ m.width - 1 := by
    have h1 : (2 ^ (m.width - 1) : Int) * 2 = 2 ^ m.width := by
      rw [← pow_succ]
      congr 1
      omega
    have h2 : (0 : Int) < 2 ^ (m.width - 1) := pow_pos (by norm_num) _
    omega
  unfold inconvI
  rw [ht]
  simp only [hs, true_and, if_pos hhi]
  ring

/-! ## Claim theorems -/

/-- C1: for every pair of numerals `a` and `b`, under the current mode,
`padd(a, b)` equals `(to_logical(a) + to_logical(b)) mod 2^w`,
reinterpreted per the current signedness and rendered in the requested
(or default) format. -/
theorem claim_padd_mod_width (m : Mode) (a b : Numeral) (fmt? : Option Fmt)
    (x y : Int) (hx : inconv m a = some x) (hy : inconv m b = some y) :
    padd m a b fmt? =
      some (renderPerSpec m (((x + y) % (2 ^ m.width)).toNat) fmt?) := by
  unfold padd
  rw [hx, hy]
  show some (c2repr m (x + y) fmt?) = _
  rw [c2repr_eq_renderPerSpec]
  rfl

theorem claim_padd_mod_width_witness :
    inconv ⟨true, 4, Fmt.h⟩ (Numeral.int 15) = some (-1) ∧
    padd ⟨true, 4, Fmt.h⟩ (Numeral.int 15) (Numeral.int 15) none =
      some (renderPerSpec ⟨true, 4, Fmt.h⟩ (((-1 + -1 : Int) % (2 ^ 4)).toNat) none) :=
  ⟨by decide, claim_padd_mod_width ⟨true, 4, Fmt.h⟩ (Numeral.int 15)
    (Numeral.int 15) none (-1) (-1) (by decide) (by decide)⟩

/-- C6: for every numeral `v` and current width, truncating, applying
`to_logical` (`inconv`), and truncating again yields the same bit
pattern: truncation is idempotent across the signed reinterpretation. -/
theorem claim_truncation_roundtrip (m : Mode) (v : Numeral) (t : Int)
    (h : (pint v).map (toTruncated m) = some t) :
    toTruncated m (inconvI m t) = t := by
  rcases hp : pint v with _ | x
  · rw [hp] at h
    exact Option.noConfusion h
  · rw [hp] at h
    rw [← Option.some.inj h]
    exact toTruncated_inconvI m x

theorem claim_truncation_roundtrip_witness :
    (pint (Numeral.int (-2))).map (toTruncated ⟨true, 4, Fmt.h⟩) = some 14 ∧
    toTruncated ⟨true, 4, Fmt.h⟩ (inconvI ⟨true, 4, Fmt.h⟩ 14) = 14 :=
  ⟨by decide, claim_truncation_roundtrip ⟨true, 4, Fmt.h⟩ (Numeral.int (-2))
    14 (by decide)⟩

/-- C9: for every numeral `a` and every format argument, `pinv(a, fmt)`
returns `pxor(a, -1)` rendered in the current default output format:
the `fmt` parameter is ignored and never affects the result.  In signed
mode (with a positive width) the result is the rendering of the bitwise
complement `-to_logical(a) - 1`. -/
theorem claim_pinv_ignores_fmt (m : Mode) (a : Numeral) (fmt1 fmt2 : Option Fmt)
    (x : Int) (hx : inconv m a = some x) :
    pinv m a fmt1 = pinv m a fmt2 ∧
    pinv m a fmt1 = pxor m a (Numeral.int (-1)) none ∧
    pinv m a fmt1 = some (c2repr m (pyXor x (inconvI m (-1))) none) ∧
    (m.signed = true → 0 < m.width →
      pinv m a fmt1 = some (c2repr m (-x - 1) none)) := by
  refine ⟨rfl, rfl, ?_, ?_⟩
  · unfold pinv pxor
    rw [hx]
    rfl
  · intro hs hw
    unfold pinv pxor
    rw [hx]
    show some (c2repr m (pyXor x (inconvI m (-1))) none) = _
    rw [inconvI_neg_one_signed m hs hw, pyXor_neg_one]

theorem claim_pinv_ignores_fmt_witness :
    inconv ⟨true, 8, Fmt.h⟩ (Numeral.int 1) = some 1 ∧
    (pinv ⟨true, 8, Fmt.h⟩ (Numeral.int 1) (some Fmt.d) =
        pinv ⟨true, 8, Fmt.h⟩ (Numeral.int 1) (some Fmt.b) ∧
      pinv ⟨true, 8, Fmt.h⟩ (Numeral.int 1) (some Fmt.d) =
        pxor ⟨true, 8, Fmt.h⟩ (Numeral.int 1) (Numeral.int (-1)) none ∧
      pinv ⟨true, 8, Fmt.h⟩ (Numeral.int 1) (some Fmt.d) =
        some (c2repr ⟨true, 8, Fmt.h⟩
          (pyXor 1 (inconvI ⟨true, 8, Fmt.h⟩ (-1))) none) ∧
      ((⟨true, 8, Fmt.h⟩ : Mode).signed = true → 0 < (⟨true, 8, Fmt.h⟩ : Mode).width →
        pinv ⟨true, 8, Fmt.h⟩ (Numeral.int 1) (some Fmt.d) =
          some (c2repr ⟨true, 8, Fmt.h⟩ (-1 - 1) none))) :=
  ⟨by decide, claim_pinv_ignores_fmt ⟨true, 8, Fmt.h⟩ (Numeral.int 1)
    (some Fmt.d) (some Fmt.b) 1 (by decide)⟩

/-- C10: for every call `psetmode(signed, width, fmt)` with `signed`
not `None` and a non-positive `width`, the call raises at the width
check, but only after the signedness flag has been updated to
`bool(signed)`; the width and default format are left unchanged. -/
theorem claim_psetmode_nonatomic (st : Mode) (b : Bool) (w : Int)
    (fmt? : Option Fmt) (hw : w ≤ 0) :
    psetmode st (some b) (some w) fmt? =
      Except.error { st with signed := b } := by
  have h : ¬ (0 < w) := by omega
  simp [psetmode, h]

theorem claim_psetmode_nonatomic_witness :
    (0 : Int) ≤ 0 ∧
    psetmode ⟨true, 64, Fmt.h⟩ (some false) (some 0) (some Fmt.b) =
      Except.error ⟨false, 64, Fmt.h⟩ :=
  ⟨by decide, claim_psetmode_nonatomic ⟨true, 64, Fmt.h⟩ false 0
    (some Fmt.b) (by decide)⟩

theorem fmod_neg_bounds {y : Int} (x : Int) (hy : y < 0) :
    y < Int.fmod x y ∧ Int.fmod x y ≤ 0 := by
  obtain ⟨n, rfl⟩ : ∃ n : Nat, y = Int.negSucc n := by
    cases y with
    | ofNat k =>
      exfalso
      have h0 : (0 : Int) ≤ Int.ofNat k := Int.ofNat_nonneg k
      omega
    | negSucc k => exact ⟨k, rfl⟩
  have hns : Int.negSucc n = -((n : Int) + 1) := Int.negSucc_eq n
  cases x with
  | ofNat k =>
    cases k with
    | zero =>
      rw [show Int.ofNat 0 = 0 from rfl, Int.zero_fmod, hns]
      have h0 : (0 : Int) ≤ (n : Int) := Int.natCast_nonneg n
      constructor <;> omega
    | succ j =>
      have hred : Int.fmod (Int.ofNat (j + 1)) (Int.negSucc n) =
          Int.subNatNat (j % (n + 1)) n := rfl
      rw [hred, Int.subNatNat_eq_coe, hns]
      have h1 : j % (n + 1) < n + 1 := Nat.mod_lt j (Nat.succ_pos n)
      have h2 : ((j % (n + 1) : Nat) : Int) < (n : Int) + 1 := by exact_mod_cast h1
      have h3 : (0 : Int) ≤ ((j % (n + 1) : Nat) : Int) := Int.natCast_nonneg _
      constructor <;> omega
  | negSucc k =>
    have hred : Int.fmod (Int.negSucc k) (Int.negSucc n) =
        -(Int.ofNat ((k + 1) % (n + 1))) := rfl
    rw [hred, Int.ofNat_eq_natCast, hns]
    have h1 : (k + 1) % (n + 1) < n + 1 := Nat.mod_lt (k + 1) (Nat.succ_pos n)
    have h2 : (((k + 1) % (n + 1) : Nat) : Int) < (n : Int) + 1 := by exact_mod_cast h1
    have h3 : (0 : Int) ≤ (((k + 1) % (n + 1) : Nat) : Int) := Int.natCast_nonneg _
    constructor <;> omega

/-- C2, counterexample: under signed 4-bit mode with logical operands
-7 and 2, `pdiv` renders -4, the floor quotient, not the
toward-zero quotient -3; and `prem` renders 1, a remainder whose sign
is that of the divisor, not of the negative dividend. -/
theorem claim_div_truncates_counterexample :
    pdiv ⟨true, 4, Fmt.h⟩ (Numeral.int (-7)) (Numeral.int 2) (some Fmt.d) =
      some (Out.intOut (-4)) ∧
    Int.tdiv (-7) 2 = -3 ∧
    ((-4 : Int) ≠ -3) ∧
    prem ⟨true, 4, Fmt.h⟩ (Numeral.int (-7)) (Numeral.int 2) (some Fmt.d) =
      some (Out.intOut 1) ∧
    ¬ ((1 : Int) < 0) := by
  refine ⟨by decide, by decide, by decide, by decide, by decide⟩

/-- C2, amended: for every pair of numerals with a nonzero logical
divisor, `pdiv` renders the quotient rounded toward negative infinity
(Python floor division) and `prem` renders the floor remainder, which
satisfies the division identity and whose sign matches the sign of the
divisor (not the dividend). -/
theorem claim_div_floor (m : Mode) (a b : Numeral) (fmt? : Option Fmt)
    (x y : Int) (hx : inconv m a = some x) (hy : inconv m b = some y)
    (hy0 : y ≠ 0) :
    pdiv m a b fmt? = some (c2repr m (Int.fdiv x y) fmt?) ∧
    prem m a b fmt? = some (c2repr m (Int.fmod x y) fmt?) ∧
    y * Int.fdiv x y + Int.fmod x y = x ∧
    (0 < y → 0 ≤ Int.fmod x y ∧ Int.fmod x y < y) ∧
    (y < 0 → y < Int.fmod x y ∧ Int.fmod x y ≤ 0) := by
  refine ⟨?_, ?_, Int.fdiv_add_fmod x y, ?_, ?_⟩
  · unfold pdiv
    rw [hx, hy]
    show (if y = 0 then none else some (c2repr m (Int.fdiv x y) fmt?)) = _
    rw [if_neg hy0]
  · unfold prem
    rw [hx, hy]
    show (if y = 0 then none else some (c2repr m (Int.fmod x y) fmt?)) = _
    rw [if_neg hy0]
  · intro hpos
    exact ⟨Int.fmod_nonneg' x hpos, Int.fmod_lt_of_pos x hpos⟩
  · intro hneg
    exact fmod_neg_bounds x hneg

theorem claim_div_floor_witness :
    inconv ⟨true, 4, Fmt.h⟩ (Numeral.int (-7)) = some (-7) ∧
    inconv ⟨true, 4, Fmt.h⟩ (Numeral.int 2) = some 2 ∧
    ((2 : Int) ≠ 0) ∧
    (pdiv ⟨true, 4, Fmt.h⟩ (Numeral.int (-7)) (Numeral.int 2) (some Fmt.d) =
        some (c2repr ⟨true, 4, Fmt.h⟩ (Int.fdiv (-7) 2) (some Fmt.d)) ∧
      prem ⟨true, 4, Fmt.h⟩ (Numeral.int (-7)) (Numeral.int 2) (some Fmt.d) =
        some (c2repr ⟨true, 4, Fmt.h⟩ (Int.fmod (-7) 2) (some Fmt.d)) ∧
      2 * Int.fdiv (-7) 2 + Int.fmod (-7) 2 = -7 ∧
      ((0 : Int) < 2 → 0 ≤ Int.fmod (-7) 2 ∧ Int.fmod (-7) 2 < 2) ∧
      ((2 : Int) < 0 → 2 < Int.fmod (-7) 2 ∧ Int.fmod (-7) 2 ≤ 0)) :=
  ⟨by decide, by decide, by decide,
    claim_div_floor ⟨true, 4, Fmt.h⟩ (Numeral.int (-7)) (Numeral.int 2)
      (some Fmt.d) (-7) 2 (by decide) (by decide) (by decide)⟩

/-- C5, counterexample: under signed 4-bit mode the shift count 8
reinterprets as the negative logical value -8, and both shifts raise
`ValueError` (modeled by `none`) instead of completing. -/
theorem claim_shift_counts_counterexample :
    pls ⟨true, 4, Fmt.h⟩ (Numeral.int 1) (Numeral.int 8) none = none ∧
    prs ⟨true, 4, Fmt.h⟩ (Numeral.int 1) (Numeral.int 8) none = none := by
  refine ⟨by decide, by decide⟩

/-- C5, amended: shift counts pass through the same mode truncation as
values (`to_logical`); whenever the truncated count is non-negative the
shift completes with that count, unclamped (in particular, in unsigned
mode the count is the numeral reduced mod `2^width`, so counts
exceeding the width wrap rather than saturate); but when signed
reinterpretation makes the count negative, Python rejects the shift
with `ValueError` instead of completing. -/
theorem claim_shift_counts (m : Mode) (a i : Numeral) (fmt? : Option Fmt)
    (x v : Int) (hx : inconv m a = some x) (hv : pint i = some v) :
    (0 ≤ inconvI m v →
      pls m a i fmt? = some (c2repr m (x * 2 ^ (inconvI m v).toNat) fmt?) ∧
      prs m a i fmt? =
        some (c2repr m (Int.fdiv x (2 ^ (inconvI m v).toNat)) fmt?)) ∧
    (inconvI m v < 0 → pls m a i fmt? = none ∧ prs m a i fmt? = none) ∧
    (m.signed = false →
      0 ≤ inconvI m v ∧ inconvI m v = v % (2 ^ m.width)) := by
  have hi : inconv m i = some (inconvI m v) := by
    unfold inconv
    rw [hv]
    rfl
  refine ⟨fun hs => ⟨?_, ?_⟩, fun hs => ⟨?_, ?_⟩, fun hs => ?_⟩
  · unfold pls
    rw [hx, hi]
    show (if inconvI m v < 0 then none else some _) = _
    rw [if_neg (by omega)]
  · unfold prs
    rw [hx, hi]
    show (if inconvI m v < 0 then none else some _) = _
    rw [if_neg (by omega)]
  · unfold pls
    rw [hx, hi]
    show (if inconvI m v < 0 then none else some _) = _
    rw [if_pos hs]
  · unfold prs
    rw [hx, hi]
    show (if inconvI m v < 0 then none else some _) = _
    rw [if_pos hs]
  · have ht : inconvI m v = v % (2 ^ m.width) := by
      unfold inconvI toTruncated
      simp [hs]
    refine ⟨?_, ht⟩
    rw [ht]
    exact Int.emod_nonneg v (by positivity)

theorem claim_shift_counts_witness :
    inconv ⟨false, 4, Fmt.h⟩ (Numeral.int 1) = some 1 ∧
    pint (Numeral.int 35) = some 35 ∧
    ((0 ≤ inconvI ⟨false, 4, Fmt.h⟩ 35 →
        pls ⟨false, 4, Fmt.h⟩ (Numeral.int 1) (Numeral.int 35) none =
          some (c2repr ⟨false, 4, Fmt.h⟩
            (1 * 2 ^ (inconvI ⟨false, 4, Fmt.h⟩ 35).toNat) none) ∧
        prs ⟨false, 4, Fmt.h⟩ (Numeral.int 1) (Numeral.int 35) none =
          some (c2repr ⟨false, 4, Fmt.h⟩
            (Int.fdiv 1 (2 ^ (inconvI ⟨false, 4, Fmt.h⟩ 35).toNat)) none)) ∧
      (inconvI ⟨false, 4, Fmt.h⟩ 35 < 0 →
        pls ⟨false, 4, Fmt.h⟩ (Numeral.int 1) (Numeral.int 35) none = none ∧
        prs ⟨false, 4, Fmt.h⟩ (Numeral.int 1) (Numeral.int 35) none = none) ∧
      ((⟨false, 4, Fmt.h⟩ : Mode).signed = false →
        0 ≤ inconvI ⟨false, 4, Fmt.h⟩ 35 ∧
        inconvI ⟨false, 4, Fmt.h⟩ 35 =
          35 % (2 ^ (⟨false, 4, Fmt.h⟩ : Mode).width))) :=
  ⟨by decide, by decide,
    claim_shift_counts ⟨false, 4, Fmt.h⟩ (Numeral.int 1) (Numeral.int 35)
      none 1 35 (by decide) (by decide)⟩

theorem sortPairs_nil_iff (pairs : List (String × Nat)) :
    sortPairs pairs = [] ↔ pairs = [] := by
  have hlen : (sortPairs pairs).length = pairs.length :=
    (List.perm_insertionSort pairLe pairs).length_eq
  constructor
  · intro h
    rw [h] at hlen
    exact List.length_eq_zero.mp hlen.symm
  · intro h
    subst h
    rfl

/-- C3, counterexample: constructing an `Enc` from two pairs that share
the high bit 3 succeeds and returns an encoding (whose second field is
degenerate, with low bit 4 above high bit 3); no error of any kind is
raised. -/
theorem claim_enc_dup_counterexample :
    Enc.construct "e" [("a", 3), ("b", 3)] =
      some (Enc.mk "e" [Field.mk "a" 0 3, Field.mk "b" 4 3]) := by
  decide

/-- C3, amended: `Enc.__init__` performs no duplicate check; building
from any nonempty collection of (name, high bit) pairs succeeds,
duplicated high bits included (the only construction failure is the
`IndexError` on an empty collection).  A duplicated high bit silently
produces a degenerate field, as the counterexample shows. -/
theorem claim_enc_dup_no_reject (name : String) (pairs : List (String × Nat)) :
    (Enc.construct name pairs).isSome ↔ pairs ≠ [] := by
  unfold Enc.construct
  cases hsp : sortPairs pairs with
  | nil =>
    have hnil : pairs = [] := (sortPairs_nil_iff pairs).mp hsp
    simp [hnil]
  | cons p0 rest =>
    have hne : pairs ≠ [] := by
      intro h
      subst h
      exact List.noConfusion hsp
    simp [hne]

/-- C4, counterexample: looking up a high bit that no field of the
encoding has does not fail: `Enc.field` runs off the loop and returns
Python's implicit `None` (`noneRet`), which is not an error outcome. -/
theorem claim_field_missing_counterexample :
    Enc.construct "e" [("a", 3)] = some (Enc.mk "e" [Field.mk "a" 0 3]) ∧
    Enc.field (Enc.mk "e" [Field.mk "a" 0 3]) ("a", 5) = LookupResult.noneRet ∧
    LookupResult.noneRet ≠ LookupResult.assertFail := by
  refine ⟨by decide, by decide, by decide⟩

/-- C4, amended: `Enc.field` scans for the first field whose high bit
matches; on a name match it returns the field, on a name mismatch it
raises the assertion, and when no field has the queried high bit it
returns `None` without raising any error. -/
theorem claim_field_lookup (e : Enc) (q : String × Nat) :
    Enc.field e q =
      match e.fields.find? (fun f => f.fend == q.2) with
      | none => LookupResult.noneRet
      | some f =>
        if f.fname = q.1 then LookupResult.found f
        else LookupResult.assertFail := by
  unfold Enc.field
  induction e.fields with
  | nil => rfl
  | cons f rest ih =>
    show fieldLookup (f :: rest) q = _
    rw [List.find?_cons]
    by_cases hf : f.fend = q.2
    · simp [fieldLookup, hf]
    · have hb : (f.fend == q.2) = false := beq_eq_false_iff_ne.mpr hf
      simp only [fieldLookup, if_neg hf, hb]
      exact ih

theorem buildFields_map_fend : ∀ (rest : List (String × Nat)) (lastFend : Nat),
    (buildFields lastFend rest).map Field.fend = rest.map Prod.snd
  | [], _ => rfl
  | p :: rest, lastFend => by
    simp only [buildFields, List.map_cons]
    rw [buildFields_map_fend rest p.2]

theorem buildFields_chained : ∀ (rest : List (String × Nat)) (lastFend : Nat),
    List.Pairwise (fun p q => p.2 < q.2) rest →
    (∀ p ∈ rest, lastFend < p.2) →
    chainedFrom (lastFend + 1) (buildFields lastFend rest)
  | [], _, _, _ => trivial
  | p :: rest, lastFend, hlt, hgt => by
    obtain ⟨hhead, htail⟩ := List.pairwise_cons.mp hlt
    refine ⟨rfl, ?_, ?_⟩
    · exact hgt p (List.mem_cons_self p rest)
    · exact buildFields_chained rest p.2 htail hhead

theorem chainEnd_ge : ∀ (fs : List Field) (lo : Nat),
    chainedFrom lo fs → lo ≤ chainEnd lo fs
  | [], _, _ => Nat.le_refl _
  | f :: rest, lo, h => by
    obtain ⟨hbeg, hle, hrest⟩ := h
    show lo ≤ chainEnd (f.fend + 1) rest
    calc lo ≤ f.fend + 1 := by omega
    _ ≤ chainEnd (f.fend + 1) rest := chainEnd_ge rest (f.fend + 1) hrest

theorem chained_cover : ∀ (fs : List Field) (lo : Nat), chainedFrom lo fs →
    ∀ b : Nat,
      (fs.filter (fun f => decide (f.fbeg ≤ b ∧ b ≤ f.fend))).length =
        if lo ≤ b ∧ b < chainEnd lo fs then 1 else 0
  | [], lo, _, b => by
    show ([] : List Field).length = if lo ≤ b ∧ b < lo then 1 else 0
    rw [if_neg (by omega)]
    rfl
  | f :: rest, lo, h, b => by
    obtain ⟨hbeg, hle, hrest⟩ := h
    have ih := chained_cover rest (f.fend + 1) hrest b
    have hce : f.fend + 1 ≤ chainEnd (f.fend + 1) rest :=
      chainEnd_ge rest (f.fend + 1) hrest
    have hcee : chainEnd lo (f :: rest) = chainEnd (f.fend + 1) rest := rfl
    rw [List.filter_cons, hcee]
    by_cases hin : f.fbeg ≤ b ∧ b ≤ f.fend
    · rw [if_pos (decide_eq_true hin), List.length_cons, ih]
      rw [if_neg (by omega), if_pos (by omega)]
    · rw [if_neg (by simpa using hin), ih]
      have hiff : (f.fend + 1 ≤ b ∧ b < chainEnd (f.fend + 1) rest) ↔
          (lo ≤ b ∧ b < chainEnd (f.fend + 1) rest) := by
        constructor <;> intro hx <;> exact ⟨by omega, hx.2⟩
      exact if_congr hiff rfl rfl

theorem chained_end_max : ∀ (fs : List Field) (lo : Nat), chainedFrom lo fs →
    fs ≠ [] → chainEnd lo fs = (fs.map Field.fend).foldr max 0 + 1
  | [], _, _, hne => absurd rfl hne
  | [f], lo, _, _ => by
    show f.fend + 1 = max f.fend 0 + 1
    rw [Nat.max_eq_left (Nat.zero_le _)]
  | f :: g :: rest, lo, h, _ => by
    obtain ⟨hbeg, hle, hrest⟩ := h
    have ih := chained_end_max (g :: rest) (f.fend + 1) hrest (by simp)
    show chainEnd (f.fend + 1) (g :: rest) =
      max f.fend (((g :: rest).map Field.fend).foldr max 0) + 1
    rw [ih]
    have hgb : g.fbeg = f.fend + 1 := hrest.1
    have hgle : f.fend + 1 ≤ g.fend := hrest.2.1
    have hgmax : g.fend ≤ ((g :: rest).map Field.fend).foldr max 0 := by
      show g.fend ≤ max g.fend ((rest.map Field.fend).foldr max 0)
      exact Nat.le_max_left _ _
    rw [Nat.max_eq_right (by omega)]

theorem foldr_max_perm {l1 l2 : List Nat} (h : l1.Perm l2) :
    l1.foldr max 0 = l2.foldr max 0 := by
  induction h with
  | nil => rfl
  | cons x _ ih => simp only [List.foldr_cons, ih]
  | swap x y l =>
    show max y (max x _) = max x (max y _)
    exact Nat.max_left_comm y x _
  | trans _ _ ih1 ih2 => rw [ih1, ih2]

/-- C7: for every `Enc` built from pairs with pairwise-distinct high
bits, the fields chain contiguously from bit 0 (each next low bit is
the previous high bit plus one, every field non-degenerate), the
fields' high bits are exactly the given high bits, and every bit
position up to the maximal high bit lies in exactly one field while
every higher position lies in none. -/
theorem claim_enc_partition (name : String) (pairs : List (String × Nat))
    (e : Enc) (hdup : pairs.Pairwise (fun p q => p.2 ≠ q.2))
    (hc : Enc.construct name pairs = some e) :
    chainedFrom 0 e.fields ∧
    (e.fields.map Field.fend).Perm (pairs.map Prod.snd) ∧
    (∀ b : Nat,
      (e.fields.filter (fun f => decide (f.fbeg ≤ b ∧ b ≤ f.fend))).length =
        if b ≤ maxHigh pairs then 1 else 0) := by
  unfold Enc.construct at hc
  rcases hsp : sortPairs pairs with _ | ⟨p0, rest⟩
  · rw [hsp] at hc
    exact Option.noConfusion hc
  · rw [hsp] at hc
    have he : e = Enc.mk name (Field.mk p0.1 0 p0.2 :: buildFields p0.2 rest) :=
      (Option.some.inj hc).symm
    have hfields : e.fields = Field.mk p0.1 0 p0.2 :: buildFields p0.2 rest := by
      rw [he]
    have hperm : (p0 :: rest).Perm pairs := by
      rw [← hsp]
      exact List.perm_insertionSort pairLe pairs
    have hsorted : List.Pairwise pairLe (p0 :: rest) := by
      rw [← hsp]
      exact List.sorted_insertionSort pairLe pairs
    have hne : List.Pairwise (fun p q : String × Nat => p.2 ≠ q.2) (p0 :: rest) :=
      (hperm.pairwise_iff (fun h => Ne.symm h)).mpr hdup
    have hlt : List.Pairwise (fun p q : String × Nat => p.2 < q.2) (p0 :: rest) :=
      (hsorted.and hne).imp (fun h => lt_of_le_of_ne h.1 h.2)
    obtain ⟨hhead, htail⟩ := List.pairwise_cons.mp hlt
    have hch : chainedFrom 0 (Field.mk p0.1 0 p0.2 :: buildFields p0.2 rest) :=
      ⟨rfl, Nat.zero_le _, buildFields_chained rest p0.2 htail hhead⟩
    have hmap : (Field.mk p0.1 0 p0.2 :: buildFields p0.2 rest).map Field.fend =
        (p0 :: rest).map Prod.snd := by
      simp only [List.map_cons, buildFields_map_fend]
    have hpermf :
        ((Field.mk p0.1 0 p0.2 :: buildFields p0.2 rest).map Field.fend).Perm
          (pairs.map Prod.snd) := by
      rw [hmap]
      exact hperm.map Prod.snd
    rw [hfields]
    refine ⟨hch, hpermf, ?_⟩
    intro b
    have hcov := chained_cover _ 0 hch b
    have hend := chained_end_max _ 0 hch (by simp)
    have hmx :
        ((Field.mk p0.1 0 p0.2 :: buildFields p0.2 rest).map Field.fend).foldr
          max 0 = maxHigh pairs := foldr_max_perm hpermf
    rw [hcov, hend, hmx]
    exact if_congr (by omega) rfl rfl

theorem claim_enc_partition_witness :
    ([("opc", 31), ("rd", 29), ("opc", 24), ("imm22", 21)] :
      List (String × Nat)).Pairwise (fun p q => p.2 ≠ q.2) ∧
    Enc.construct "sethi" [("opc", 31), ("rd", 29), ("opc", 24), ("imm22", 21)] =
      some (Enc.mk "sethi" [Field.mk "imm22" 0 21, Field.mk "opc" 22 24,
        Field.mk "rd" 25 29, Field.mk "opc" 30 31]) ∧
    (chainedFrom 0 (Enc.mk "sethi" [Field.mk "imm22" 0 21, Field.mk "opc" 22 24,
        Field.mk "rd" 25 29, Field.mk "opc" 30 31]).fields ∧
      ((Enc.mk "sethi" [Field.mk "imm22" 0 21, Field.mk "opc" 22 24,
        Field.mk "rd" 25 29, Field.mk "opc" 30 31]).fields.map Field.fend).Perm
        (([("opc", 31), ("rd", 29), ("opc", 24), ("imm22", 21)] :
          List (String × Nat)).map Prod.snd) ∧
      (∀ b : Nat,
        ((Enc.mk "sethi" [Field.mk "imm22" 0 21, Field.mk "opc" 22 24,
          Field.mk "rd" 25 29, Field.mk "opc" 30 31]).fields.filter
            (fun f => decide (f.fbeg ≤ b ∧ b ≤ f.fend))).length =
          if b ≤ maxHigh [("opc", 31), ("rd", 29), ("opc", 24), ("imm22", 21)]
          then 1 else 0)) :=
  ⟨by decide, by decide,
    claim_enc_partition "sethi" [("opc", 31), ("rd", 29), ("opc", 24), ("imm22", 21)]
      (Enc.mk "sethi" [Field.mk "imm22" 0 21, Field.mk "opc" 22 24,
        Field.mk "rd" 25 29, Field.mk "opc" 30 31]) (by decide) (by decide)⟩

/-- Positional value of a digit string, written independently of the
parser's accumulator loop: most significant digit first. -/
def digitsVal (b : Nat) (dv : Char → Option Nat) : List Char → Nat
  | [] => 0
  | c :: rest => (dv c).getD 0 * b ^ rest.length + digitsVal b dv rest

theorem digitsLoop_val (dv : Char → Option Nat) (b : Nat)
    (hund : dv '_' = none) :
    ∀ (ds : List Char) (acc : Nat), (∀ c ∈ ds, (dv c).isSome) →
      digitsLoop dv b acc ds = some (acc * b ^ ds.length + digitsVal b dv ds)
  | [], acc, _ => by
    simp [digitsLoop, digitsVal]
  | c :: rest, acc, hall => by
    have hc : (dv c).isSome := hall c (List.mem_cons_self c rest)
    have hcne : c ≠ '_' := by
      intro heq
      rw [heq, hund] at hc
      exact Bool.noConfusion hc
    obtain ⟨d, hd⟩ := Option.isSome_iff_exists.mp hc
    unfold digitsLoop
    rw [if_neg hcne, hd]
    show digitsLoop dv b (acc * b + d) rest = _
    rw [digitsLoop_val dv b hund rest (acc * b + d)
      (fun x hx => hall x (List.mem_cons_of_mem c hx))]
    congr 1
    show (acc * b + d) * b ^ rest.length + digitsVal b dv rest =
      acc * b ^ (c :: rest).length + ((dv c).getD 0 * b ^ rest.length +
        digitsVal b dv rest)
    rw [hd]
    show (acc * b + d) * b ^ rest.length + digitsVal b dv rest =
      acc * b ^ (rest.length + 1) + (d * b ^ rest.length + digitsVal b dv rest)
    ring

theorem parseRun_val (dv : Char → Option Nat) (b : Nat)
    (hund : dv '_' = none) (ds : List Char) (hne : ds ≠ [])
    (hall : ∀ c ∈ ds, (dv c).isSome) :
    parseRun dv b ds = some (digitsVal b dv ds) := by
  cases ds with
  | nil => exact absurd rfl hne
  | cons c rest =>
    obtain ⟨d, hd⟩ :=
      Option.isSome_iff_exists.mp (hall c (List.mem_cons_self c rest))
    show (match dv c with
      | none => none
      | some d => digitsLoop dv b d rest) = some (digitsVal b dv (c :: rest))
    rw [hd]
    show digitsLoop dv b d rest = _
    rw [digitsLoop_val dv b hund rest d
      (fun x hx => hall x (List.mem_cons_of_mem c hx))]
    congr 1
    show d * b ^ rest.length + digitsVal b dv rest =
      (dv c).getD 0 * b ^ rest.length + digitsVal b dv rest
    rw [hd]
    rfl

theorem hexChar_props {c : Char} (h : (hexDigit? c).isSome) :
    (!(isPySpace c)) = true ∧ c ≠ '_' ∧ c ≠ '-' ∧ c ≠ '+' ∧
      c ≠ 'x' ∧ c ≠ 'X' := by
  have hne : ∀ d : Char, ¬ ((hexDigit? d).isSome = true) → c ≠ d :=
    fun d hd hcd => hd (hcd ▸ h)
  refine ⟨?_, hne '_' (by decide), hne '-' (by decide), hne '+' (by decide),
    hne 'x' (by decide), hne 'X' (by decide)⟩
  have h1 := hne ' ' (by decide)
  have h2 := hne '\t' (by decide)
  have h3 := hne '\n' (by decide)
  have h4 := hne '\r' (by decide)
  have h5 := hne '\x0b' (by decide)
  have h6 := hne '\x0c' (by decide)
  unfold isPySpace
  simp [h1, h2, h3, h4, h5, h6]

theorem binChar_props {c : Char} (h : (binDigit? c).isSome) :
    (!(isPySpace c)) = true ∧ c ≠ '_' := by
  have hne : ∀ d : Char, ¬ ((binDigit? d).isSome = true) → c ≠ d :=
    fun d hd hcd => hd (hcd ▸ h)
  refine ⟨?_, hne '_' (by decide)⟩
  have h1 := hne ' ' (by decide)
  have h2 := hne '\t' (by decide)
  have h3 := hne '\n' (by decide)
  have h4 := hne '\r' (by decide)
  have h5 := hne '\x0b' (by decide)
  have h6 := hne '\x0c' (by decide)
  unfold isPySpace
  simp [h1, h2, h3, h4, h5, h6]

theorem runAfterTag_val (dv : Char → Option Nat) (b : Nat)
    (hund : dv '_' = none) (ds : List Char) (hne : ds ≠ [])
    (hall : ∀ c ∈ ds, (dv c).isSome) :
    runAfterTag dv b ds = some (digitsVal b dv ds) := by
  cases ds with
  | nil => exact absurd rfl hne
  | cons c rest =>
    have hc : (dv c).isSome := hall c (List.mem_cons_self c rest)
    have hcne : c ≠ '_' := by
      intro heq
      rw [heq, hund] at hc
      exact Bool.noConfusion hc
    show (if c = '_' then parseRun dv b rest else parseRun dv b (c :: rest)) = _
    rw [if_neg hcne]
    exact parseRun_val dv b hund (c :: rest) (by simp) hall

theorem pyNat2_tagged (ds : List Char) (hne : ds ≠ [])
    (hall : ∀ c ∈ ds, (binDigit? c).isSome) :
    pyNatOfChars binDigit? 2 'b' 'B' ('0' :: 'b' :: ds) =
      some (digitsVal 2 binDigit? ds) := by
  show (if ('0' : Char) = '0' ∧ (('b' : Char) = 'b' ∨ ('b' : Char) = 'B') then
      runAfterTag binDigit? 2 ds
    else parseRun binDigit? 2 ('0' :: 'b' :: ds)) = _
  rw [if_pos ⟨rfl, Or.inl rfl⟩]
  exact runAfterTag_val binDigit? 2 (by decide) ds hne hall

theorem pyNat16_plain (es : List Char) (hne : es ≠ [])
    (hall : ∀ c ∈ es, (hexDigit? c).isSome) :
    pyNatOfChars hexDigit? 16 'x' 'X' es = some (digitsVal 16 hexDigit? es) := by
  cases es with
  | nil => exact absurd rfl hne
  | cons e0 tail =>
    cases tail with
    | nil =>
      show parseRun hexDigit? 16 [e0] = _
      exact parseRun_val hexDigit? 16 (by decide) [e0] (by simp) hall
    | cons e1 tail2 =>
      have h1 := hexChar_props (hall e1 (by simp))
      show (if e0 = '0' ∧ (e1 = 'x' ∨ e1 = 'X') then
          runAfterTag hexDigit? 16 tail2
        else parseRun hexDigit? 16 (e0 :: e1 :: tail2)) = _
      rw [if_neg ?_]
      · exact parseRun_val hexDigit? 16 (by decide) (e0 :: e1 :: tail2)
          (by simp) hall
      · rintro ⟨_, hx | hx⟩
        · exact h1.2.2.2.2.1 hx
        · exact h1.2.2.2.2.2 hx

theorem pyNat16_tagged (tg : Char) (htg : tg = 'x' ∨ tg = 'X')
    (es : List Char) (hne : es ≠ [])
    (hall : ∀ c ∈ es, (hexDigit? c).isSome) :
    pyNatOfChars hexDigit? 16 'x' 'X' ('0' :: tg :: es) =
      some (digitsVal 16 hexDigit? es) := by
  show (if ('0' : Char) = '0' ∧ (tg = 'x' ∨ tg = 'X') then
      runAfterTag hexDigit? 16 es
    else parseRun hexDigit? 16 ('0' :: tg :: es)) = _
  rw [if_pos ⟨rfl, htg⟩]
  exact runAfterTag_val hexDigit? 16 (by decide) es hne hall

theorem signWrap_plain (f : List Char → Option Nat) (c0 : Char)
    (tl : List Char) (hm : c0 ≠ '-') (hp : c0 ≠ '+') :
    signWrap f (c0 :: tl) = (f (c0 :: tl)).map (fun n => (n : Int)) := by
  show (if c0 = '-' then _ else if c0 = '+' then _ else _) = _
  rw [if_neg hm, if_neg hp]

theorem signWrap_neg (f : List Char → Option Nat) (tl : List Char) :
    signWrap f ('-' :: tl) = (f tl).map (fun n => -(n : Int)) := by
  show (if ('-' : Char) = '-' then (f tl).map (fun n => -(n : Int))
    else if ('-' : Char) = '+' then (f tl).map (fun n => (n : Int))
    else (f ('-' :: tl)).map (fun n => (n : Int))) =
      (f tl).map (fun n => -(n : Int))
  rw [if_pos rfl]

theorem pint_str_nospace (l : List Char)
    (hf : l.filter (fun c => !(isPySpace c)) = l) :
    pint (Numeral.str ⟨l⟩) =
      (if l.take 2 = ['0', 'b'] ∨ l.take 3 = ['-', '0', 'b'] then pyInt2 l
       else pyInt16 l) := by
  show (if (l.filter (fun c => !(isPySpace c))).take 2 = ['0', 'b'] ∨
        (l.filter (fun c => !(isPySpace c))).take 3 = ['-', '0', 'b'] then
      pyInt2 (l.filter (fun c => !(isPySpace c)))
    else pyInt16 (l.filter (fun c => !(isPySpace c)))) = _
  rw [hf]

/-- C8, counterexample: the string `0B101` (upper-case `B`) is not
parsed as binary: only a lower-case `0b`/`-0b` start selects base 2 in
`pint`.  It falls to the hexadecimal parser, where `0`, `B`, `1` are
hex digits, giving 0x0B101 = 45313 instead of the binary value 5 (which
`int(s, 2)` would produce, as the second conjunct shows). -/
theorem claim_pint_upperB_counterexample :
    pint (Numeral.str "0B101") = some 45313 ∧
    pyInt2 "0B101".data = some 5 ∧
    ((45313 : Int) ≠ 5) := by
  refine ⟨by decide, by decide, by decide⟩

/-- C8, amended: `pint` strips embedded whitespace; a string parses as
binary exactly when, after stripping, it starts with lower-case `0b` or
`-0b` (an upper-case `0B` prefix falls through to the hexadecimal
parser, where `0` and `B` are ordinary hex digits); otherwise it parses
as hexadecimal with an optional `0x`/`0X` prefix and optional leading
`-`; native integers convert directly and floats truncate toward
zero. -/
theorem claim_pint_grammar (ds es : List Char) (hdsne : ds ≠ [])
    (hds : ∀ c ∈ ds, (binDigit? c).isSome) (hesne : es ≠ [])
    (hes : ∀ c ∈ es, (hexDigit? c).isSome)
    (hnotb : es.take 2 ≠ ['0', 'b']) :
    (∀ n : Int, pint (Numeral.int n) = some n) ∧
    (∀ q : Rat, pint (Numeral.float q) = some (Int.tdiv q.num (q.den : Int))) ∧
    (∀ s : String, pint (Numeral.str s) =
      pint (Numeral.str ⟨s.data.filter (fun c => !(isPySpace c))⟩)) ∧
    pint (Numeral.str ⟨'0' :: 'b' :: ds⟩) =
      some ((digitsVal 2 binDigit? ds : Nat) : Int) ∧
    pint (Numeral.str ⟨'-' :: '0' :: 'b' :: ds⟩) =
      some (-((digitsVal 2 binDigit? ds : Nat) : Int)) ∧
    pint (Numeral.str ⟨es⟩) =
      some ((digitsVal 16 hexDigit? es : Nat) : Int) ∧
    pint (Numeral.str ⟨'0' :: 'x' :: es⟩) =
      some ((digitsVal 16 hexDigit? es : Nat) : Int) ∧
    pint (Numeral.str ⟨'-' :: '0' :: 'X' :: es⟩) =
      some (-((digitsVal 16 hexDigit? es : Nat) : Int)) := by
  refine ⟨fun n => rfl, fun q => rfl, ?_, ?_, ?_, ?_, ?_, ?_⟩
  · intro s
    have hff : (s.data.filter (fun c => !(isPySpace c))).filter
        (fun c => !(isPySpace c)) = s.data.filter (fun c => !(isPySpace c)) := by
      rw [List.filter_filter]
      apply List.filter_congr
      intro a _
      exact Bool.and_self _
    rw [pint_str_nospace (s.data.filter (fun c => !(isPySpace c))) hff]
    rfl
  · have hfilter : ('0' :: 'b' :: ds).filter (fun c => !(isPySpace c)) =
        '0' :: 'b' :: ds := by
      apply List.filter_eq_self.mpr
      intro a ha
      simp only [List.mem_cons] at ha
      rcases ha with rfl | rfl | ha
      · decide
      · decide
      · exact (binChar_props (hds a ha)).1
    have hcond : List.take 2 ('0' :: 'b' :: ds) = ['0', 'b'] ∨
        List.take 3 ('0' :: 'b' :: ds) = ['-', '0', 'b'] := Or.inl rfl
    rw [pint_str_nospace _ hfilter, if_pos hcond]
    unfold pyInt2
    rw [signWrap_plain _ '0' _ (by decide) (by decide),
      pyNat2_tagged ds hdsne hds]
    rfl
  · have hfilter : ('-' :: '0' :: 'b' :: ds).filter (fun c => !(isPySpace c)) =
        '-' :: '0' :: 'b' :: ds := by
      apply List.filter_eq_self.mpr
      intro a ha
      simp only [List.mem_cons] at ha
      rcases ha with rfl | rfl | rfl | ha
      · decide
      · decide
      · decide
      · exact (binChar_props (hds a ha)).1
    have hcond : List.take 2 ('-' :: '0' :: 'b' :: ds) = ['0', 'b'] ∨
        List.take 3 ('-' :: '0' :: 'b' :: ds) = ['-', '0', 'b'] := Or.inr rfl
    rw [pint_str_nospace _ hfilter, if_pos hcond]
    unfold pyInt2
    rw [signWrap_neg, pyNat2_tagged ds hdsne hds]
    rfl
  · obtain ⟨e0, tl, rfl⟩ : ∃ e0 tl, es = e0 :: tl := by
      cases es with
      | nil => exact absurd rfl hesne
      | cons e0 tl => exact ⟨e0, tl, rfl⟩
    have h0 := hexChar_props (hes e0 (List.mem_cons_self e0 tl))
    have hfilter : (e0 :: tl).filter (fun c => !(isPySpace c)) = e0 :: tl := by
      apply List.filter_eq_self.mpr
      intro a ha
      exact (hexChar_props (hes a ha)).1
    have hcond : ¬ (List.take 2 (e0 :: tl) = ['0', 'b'] ∨
        List.take 3 (e0 :: tl) = ['-', '0', 'b']) := by
      rintro (h | h)
      · exact hnotb h
      · have h3 : (e0 :: tl).take 3 = e0 :: tl.take 2 := rfl
        rw [h3] at h
        injection h with h1 _
        exact h0.2.2.1 h1
    rw [pint_str_nospace _ hfilter, if_neg hcond]
    unfold pyInt16
    rw [signWrap_plain _ e0 tl h0.2.2.1 h0.2.2.2.1,
      pyNat16_plain (e0 :: tl) (by simp) hes]
    rfl
  · have hfilter : ('0' :: 'x' :: es).filter (fun c => !(isPySpace c)) =
        '0' :: 'x' :: es := by
      apply List.filter_eq_self.mpr
      intro a ha
      simp only [List.mem_cons] at ha
      rcases ha with rfl | rfl | ha
      · decide
      · decide
      · exact (hexChar_props (hes a ha)).1
    have hcond : ¬ (List.take 2 ('0' :: 'x' :: es) = ['0', 'b'] ∨
        List.take 3 ('0' :: 'x' :: es) = ['-', '0', 'b']) := by
      rintro (h | h)
      · have h2 : (['0', 'x'] : List Char) = ['0', 'b'] := h
        exact absurd h2 (by decide)
      · have h3 : ('0' :: 'x' :: es).take 3 = '0' :: 'x' :: es.take 1 := rfl
        rw [h3] at h
        injection h with h1 _
        exact absurd h1 (by decide)
    rw [pint_str_nospace _ hfilter, if_neg hcond]
    unfold pyInt16
    rw [signWrap_plain _ '0' _ (by decide) (by decide),
      pyNat16_tagged 'x' (Or.inl rfl) es hesne hes]
    rfl
  · have hfilter : ('-' :: '0' :: 'X' :: es).filter (fun c => !(isPySpace c)) =
        '-' :: '0' :: 'X' :: es := by
      apply List.filter_eq_self.mpr
      intro a ha
      simp only [List.mem_cons] at ha
      rcases ha with rfl | rfl | rfl | ha
      · decide
      · decide
      · decide
      · exact (hexChar_props (hes a ha)).1
    have hcond : ¬ (List.take 2 ('-' :: '0' :: 'X' :: es) = ['0', 'b'] ∨
        List.take 3 ('-' :: '0' :: 'X' :: es) = ['-', '0', 'b']) := by
      rintro (h | h)
      · have h2 : (['-', '0'] : List Char) = ['0', 'b'] := h
        exact absurd h2 (by decide)
      · have h3 : ('-' :: '0' :: 'X' :: es).take 3 = ['-', '0', 'X'] := rfl
        rw [h3] at h
        injection h with _ h2
        injection h2 with _ h4
        injection h4 with h5 _
        exact absurd h5 (by decide)
    rw [pint_str_nospace _ hfilter, if_neg hcond]
    unfold pyInt16
    rw [signWrap_neg, pyNat16_tagged 'X' (Or.inr rfl) es hesne hes]
    rfl

theorem claim_pint_grammar_witness :
    ((['1', '0', '1'] : List Char) ≠ []) ∧
    (∀ c ∈ (['1', '0', '1'] : List Char), (binDigit? c).isSome) ∧
    ((['0', 'B', '1', '0', '1'] : List Char) ≠ []) ∧
    (∀ c ∈ (['0', 'B', '1', '0', '1'] : List Char), (hexDigit? c).isSome) ∧
    (['0', 'B', '1', '0', '1'] : List Char).take 2 ≠ ['0', 'b'] ∧
    ((∀ n : Int, pint (Numeral.int n) = some n) ∧
      (∀ q : Rat, pint (Numeral.float q) = some (Int.tdiv q.num (q.den : Int))) ∧
      (∀ s : String, pint (Numeral.str s) =
        pint (Numeral.str ⟨s.data.filter (fun c => !(isPySpace c))⟩)) ∧
      pint (Numeral.str ⟨'0' :: 'b' :: ['1', '0', '1']⟩) =
        some ((digitsVal 2 binDigit? ['1', '0', '1'] : Nat) : Int) ∧
      pint (Numeral.str ⟨'-' :: '0' :: 'b' :: ['1', '0', '1']⟩) =
        some (-((digitsVal 2 binDigit? ['1', '0', '1'] : Nat) : Int)) ∧
      pint (Numeral.str ⟨['0', 'B', '1', '0', '1']⟩) =
        some ((digitsVal 16 hexDigit? ['0', 'B', '1', '0', '1'] : Nat) : Int) ∧
      pint (Numeral.str ⟨'0' :: 'x' :: ['0', 'B', '1', '0', '1']⟩) =
        some ((digitsVal 16 hexDigit? ['0', 'B', '1', '0', '1'] : Nat) : Int) ∧
      pint (Numeral.str ⟨'-' :: '0' :: 'X' :: ['0', 'B', '1', '0', '1']⟩) =
        some (-((digitsVal 16 hexDigit? ['0', 'B', '1', '0', '1'] : Nat) : Int))) :=
  ⟨by decide, by decide, by decide, by decide, by decide,
    claim_pint_grammar ['1', '0', '1'] ['0', 'B', '1', '0', '1']
      (by decide) (by decide) (by decide) (by decide) (by decide)⟩
